import Mathlib

/-!
# Verification of the js-util db-model core

Shallow embedding of the leapfrogtechnology/js-util `db-model` package:
the case-normalization layer (`toCamelCase` / `toSnakeCase`), the
pagination engine (`buildPages`, `paginate`, `paginateSql`), the query
executor helpers (`withTimestamp`, `getProcParamsExpr`, `invoke`, `exec`,
`batchInsert`), and the storage/domain lookup tiers (`get` / `getById` /
`find` / `findById`).
-/

namespace JsUtil

/-- A JavaScript-like value: scalars, sequences and mappings.
Mappings are ordered association lists, mirroring JS object key order. -/
inductive Js where
  | str : String → Js
  | num : Int → Js
  | bool : Bool → Js
  | null : Js
  | jsUndefined : Js
  | arr : List Js → Js
  | obj : List (String × Js) → Js
  deriving Repr

theorem Js.sizeOf_lt_of_mem_arr {x : Js} {xs : List Js} (h : x ∈ xs) :
    sizeOf x < sizeOf (Js.arr xs) := by
  have := List.sizeOf_lt_of_mem h
  simp only [Js.arr.sizeOf_spec]
  omega

theorem Js.sizeOf_lt_of_mem_obj {kv : String × Js} {kvs : List (String × Js)}
    (h : kv ∈ kvs) : sizeOf kv.2 < sizeOf (Js.obj kvs) := by
  have h1 := List.sizeOf_lt_of_mem h
  have h2 : sizeOf kv = 1 + sizeOf kv.1 + sizeOf kv.2 := by
    cases kv
    simp
  simp only [Js.obj.sizeOf_spec]
  omega

/-- Structural induction principle for `Js` that exposes membership in the
nested lists, usable for proofs about recursive key transformations. -/
theorem Js.inductionOn (P : Js → Prop)
    (hstr : ∀ s, P (.str s)) (hnum : ∀ n, P (.num n))
    (hbool : ∀ b, P (.bool b)) (hnull : P .null) (hjsUndefined : P .jsUndefined)
    (harr : ∀ xs, (∀ x ∈ xs, P x) → P (.arr xs))
    (hobj : ∀ kvs, (∀ kv ∈ kvs, P kv.2) → P (.obj kvs)) :
    ∀ x, P x := by
  have H : ∀ n (x : Js), sizeOf x ≤ n → P x := by
    intro n
    induction n with
    | zero =>
      intro x hx
      exfalso
      cases x <;> simp at hx
    | succ n ih =>
      intro x hx
      cases x with
      | str s => exact hstr s
      | num m => exact hnum m
      | bool b => exact hbool b
      | null => exact hnull
      | jsUndefined => exact hjsUndefined
      | arr xs =>
        refine harr xs (fun y hy => ih y ?_)
        have := Js.sizeOf_lt_of_mem_arr hy
        omega
      | obj kvs =>
        refine hobj kvs (fun kv hkv => ih kv.2 ?_)
        have := Js.sizeOf_lt_of_mem_obj hkv
        omega
  exact fun x => H (sizeOf x) x le_rfl

/-! ## Case normalization (`utils/object.ts`)

`toCamelCase` delegates to the external npm package `camelize`,
`toSnakeCase` to the external npm package `snakeize`.  Both walk the value
recursively: mapping keys are renamed, sequence elements are recursed
into, and every other value is returned unchanged. -/

/-- Modelled from the spec: the key-name separator class of the external
`camelize` package, whose key rewrite is the regex replacement
`key.replace(/[_.-](\w|$)/g, (m, x) => x.toUpperCase())`; a separator is
one of the characters in the class `[_.-]`. -/
def isSep (c : Char) : Bool := c = '_' || c = '.' || c = '-'

/-- Modelled from the spec: the regex word class `\w`, i.e.
`[A-Za-z0-9_]`, used by `camelize`'s key rewrite. -/
def isWordChar (c : Char) : Bool := c.isAlpha || c.isDigit || c = '_'

/-- Modelled from the spec: ASCII `String.prototype.toLowerCase` on a
single character, as used by `snakeize` on each uppercase letter. -/
def lowerChar (c : Char) : Char :=
  if c.isUpper then Char.ofNat (c.toNat + 32) else c

/-- Modelled from the spec: ASCII `String.prototype.toUpperCase` on a
single character, as used by `camelize` on the character after a
separator. -/
def upperChar (c : Char) : Char :=
  if c.isLower then Char.ofNat (c.toNat - 32) else c

/-- Modelled from the spec: the key rewrite of the external `snakeize`
package, `key.replace(/([A-Z])/g, c => '_' + c.toLowerCase())`: every
uppercase letter becomes an underscore followed by its lowercase form. -/
def snakeChars : List Char → List Char
  | [] => []
  | c :: cs =>
    if c.isUpper then '_' :: lowerChar c :: snakeChars cs
    else c :: snakeChars cs

/-- Modelled from the spec: the key rewrite of the external `camelize`
package, `key.replace(/[_.-](\w|$)/g, (m, x) => x.toUpperCase())`: a
separator followed by a word character is replaced by that character
uppercased (scanning resumes after the match), a trailing separator is
dropped (it matches with the end anchor), and a separator followed by a
non-word character is kept as is. -/
def camelChars : List Char → List Char
  | [] => []
  | c :: cs =>
    if isSep c then
      match cs with
      | [] => []
      | d :: ds =>
        if isWordChar d then upperChar d :: camelChars ds
        else c :: camelChars (d :: ds)
    else c :: camelChars cs

/-- Key rewrite of `snakeize` lifted to `String`. -/
def snakeKey (s : String) : String := ⟨snakeChars s.data⟩

/-- Key rewrite of `camelize` lifted to `String`. -/
def camelKey (s : String) : String := ⟨camelChars s.data⟩

mutual

/-- Modelled from the spec: the recursive walk shared by `camelize` and
`snakeize` — rename every mapping key with `f` and recurse into mapping
values and sequence elements; all other values are returned unchanged. -/
def mapKeys (f : String → String) : Js → Js
  | .obj kvs => .obj (mapKeysObj f kvs)
  | .arr xs => .arr (mapKeysArr f xs)
  | x => x

def mapKeysObj (f : String → String) : List (String × Js) → List (String × Js)
  | [] => []
  | (k, v) :: rest => (f k, mapKeys f v) :: mapKeysObj f rest

def mapKeysArr (f : String → String) : List Js → List Js
  | [] => []
  | x :: rest => mapKeys f x :: mapKeysArr f rest

end

/-- `toCamelCase` from `utils/object.ts`: `camelize(object)`. -/
def toCamelCase (object : Js) : Js := mapKeys camelKey object

/-- `toSnakeCase` from `utils/object.ts`: `snakeize(object)`. -/
def toSnakeCase (object : Js) : Js := mapKeys snakeKey object

theorem mapKeysObj_eq_map (f : String → String) (kvs : List (String × Js)) :
    mapKeysObj f kvs = kvs.map (fun kv => (f kv.1, mapKeys f kv.2)) := by
  induction kvs with
  | nil => rfl
  | cons kv rest ih =>
    cases kv
    simp [mapKeysObj, ih]

theorem mapKeysArr_eq_map (f : String → String) (xs : List Js) :
    mapKeysArr f xs = xs.map (mapKeys f) := by
  induction xs with
  | nil => rfl
  | cons x rest ih => simp [mapKeysArr, ih]

theorem mapKeys_obj (f : String → String) (kvs : List (String × Js)) :
    mapKeys f (.obj kvs) = .obj (kvs.map (fun kv => (f kv.1, mapKeys f kv.2))) := by
  rw [mapKeys, mapKeysObj_eq_map]

theorem mapKeys_arr (f : String → String) (xs : List Js) :
    mapKeys f (.arr xs) = .arr (xs.map (mapKeys f)) := by
  rw [mapKeys, mapKeysArr_eq_map]

/-! ### Character-level facts about the key rewrites -/

theorem char_toNat_ofNat (n : Nat) (h : n < 55296) : (Char.ofNat n).toNat = n := by
  have hv : n.isValidChar := Or.inl h
  simp only [Char.ofNat, hv, dite_true, Char.ofNatAux, Char.toNat]
  rfl

theorem char_ofNat_toNat (c : Char) : Char.ofNat c.toNat = c := by
  have hv : c.toNat.isValidChar := c.valid
  simp only [Char.ofNat, hv, dite_true, Char.ofNatAux]
  apply Char.ext
  apply UInt32.ext
  rfl

theorem char_eq_iff_toNat {a b : Char} : a = b ↔ a.toNat = b.toNat := by
  constructor
  · intro h
    rw [h]
  · intro h
    rw [← char_ofNat_toNat a, ← char_ofNat_toNat b, h]

theorem isUpper_toNat {c : Char} (h : c.isUpper = true) :
    65 ≤ c.toNat ∧ c.toNat ≤ 90 := by
  simpa [Char.isUpper] using h

theorem lowerChar_toNat {c : Char} (h : c.isUpper = true) :
    (lowerChar c).toNat = c.toNat + 32 := by
  have hb := isUpper_toNat h
  rw [lowerChar, if_pos h]
  exact char_toNat_ofNat _ (by omega)

theorem lowerChar_isLower {c : Char} (h : c.isUpper = true) :
    (lowerChar c).isLower = true := by
  have hb := isUpper_toNat h
  have ht := lowerChar_toNat h
  simp only [Char.isLower, ge_iff_le, Char.le_def, UInt32.le_def, BitVec.le_def,
    Bool.and_eq_true, decide_eq_true_eq]
  refine ⟨?_, ?_⟩
  · change 97 ≤ (lowerChar c).toNat
    omega
  · change (lowerChar c).toNat ≤ 122
    omega

theorem upperChar_lowerChar {c : Char} (h : c.isUpper = true) :
    upperChar (lowerChar c) = c := by
  have hb := isUpper_toNat h
  have ht := lowerChar_toNat h
  rw [upperChar, if_pos (lowerChar_isLower h), ht]
  rw [char_eq_iff_toNat, char_toNat_ofNat _ (by omega)]
  omega

theorem lowerChar_not_upper {c : Char} (h : c.isUpper = true) :
    (lowerChar c).isUpper = false := by
  have hb := isUpper_toNat h
  have ht := lowerChar_toNat h
  by_contra hne
  have hu : (lowerChar c).isUpper = true := by
    cases hx : (lowerChar c).isUpper
    · exact absurd hx hne
    · rfl
  have := isUpper_toNat hu
  omega

theorem lowerChar_isWord {c : Char} (h : c.isUpper = true) :
    isWordChar (lowerChar c) = true := by
  simp [isWordChar, Char.isAlpha, lowerChar_isLower h]

theorem lowerChar_not_sep {c : Char} (h : c.isUpper = true) :
    isSep (lowerChar c) = false := by
  have hb := isUpper_toNat h
  have ht := lowerChar_toNat h
  simp only [isSep, Bool.or_eq_false_iff, decide_eq_false_iff_not]
  have h95 : ('_' : Char).toNat = 95 := rfl
  have h46 : ('.' : Char).toNat = 46 := rfl
  have h45 : ('-' : Char).toNat = 45 := rfl
  refine ⟨⟨?_, ?_⟩, ?_⟩ <;>
    · intro he
      rw [char_eq_iff_toNat] at he
      simp only [h95, h46, h45] at he
      omega

theorem not_sep_not_upper_snake {c : Char} (hu : c.isUpper = false) :
    snakeChars (c :: []) = [c] := by
  simp [snakeChars, hu]

/-! ### Key-level round-trip and idempotence -/

theorem camelChars_cons_not_sep {c : Char} (h : isSep c = false) (cs : List Char) :
    camelChars (c :: cs) = c :: camelChars cs := by
  rw [camelChars.eq_def]
  simp [h]

theorem camelChars_sep_word {c d : Char} (hc : isSep c = true)
    (hd : isWordChar d = true) (ds : List Char) :
    camelChars (c :: d :: ds) = upperChar d :: camelChars ds := by
  rw [camelChars.eq_def]
  simp [hc, hd]

theorem camelChars_snakeChars (cs : List Char) (h : ∀ c ∈ cs, isSep c = false) :
    camelChars (snakeChars cs) = cs := by
  induction cs with
  | nil => rfl
  | cons c cs ih =>
    have hc := h c (List.mem_cons_self c cs)
    have hrest : ∀ x ∈ cs, isSep x = false := fun x hx => h x (List.mem_cons_of_mem c hx)
    cases hu : c.isUpper with
    | true =>
      rw [snakeChars, if_pos hu]
      rw [camelChars_sep_word (by decide) (lowerChar_isWord hu)]
      rw [upperChar_lowerChar hu, ih hrest]
    | false =>
      rw [snakeChars, if_neg (by simp [hu]), camelChars_cons_not_sep hc, ih hrest]

theorem snakeChars_not_upper (cs : List Char) :
    ∀ c ∈ snakeChars cs, c.isUpper = false := by
  induction cs with
  | nil => intro c hc; cases hc
  | cons c cs ih =>
    intro d hd
    cases hu : c.isUpper with
    | true =>
      rw [snakeChars, if_pos hu] at hd
      rcases hd with _ | ⟨_, hd⟩
      · decide
      · rcases hd with _ | ⟨_, hd⟩
        · exact lowerChar_not_upper hu
        · exact ih d hd
    | false =>
      rw [snakeChars, if_neg (by simp [hu])] at hd
      rcases hd with _ | ⟨_, hd⟩
      · exact hu
      · exact ih d hd

theorem snakeChars_fixed (cs : List Char) (h : ∀ c ∈ cs, c.isUpper = false) :
    snakeChars cs = cs := by
  induction cs with
  | nil => rfl
  | cons c cs ih =>
    rw [snakeChars, if_neg (by simp [h c (List.mem_cons_self c cs)])]
    rw [ih (fun x hx => h x (List.mem_cons_of_mem c hx))]

theorem snakeChars_idem (cs : List Char) :
    snakeChars (snakeChars cs) = snakeChars cs :=
  snakeChars_fixed _ (snakeChars_not_upper cs)

theorem camelChars_fixed (cs : List Char) (h : ∀ c ∈ cs, isSep c = false) :
    camelChars cs = cs := by
  induction cs with
  | nil => rfl
  | cons c cs ih =>
    rw [camelChars_cons_not_sep (h c (List.mem_cons_self c cs))]
    rw [ih (fun x hx => h x (List.mem_cons_of_mem c hx))]

/-- A key free of the separator characters `_`, `.` and `-`. -/
def keyNoSep (s : String) : Bool := s.data.all (fun c => !isSep c)

theorem camelKey_snakeKey (s : String) (h : keyNoSep s = true) :
    camelKey (snakeKey s) = s := by
  cases s with
  | mk cs =>
    simp only [keyNoSep, List.all_eq_true, Bool.not_eq_true', String.data] at h
    simp only [camelKey, snakeKey, String.data]
    rw [camelChars_snakeChars cs h]

theorem snakeKey_idem (s : String) : snakeKey (snakeKey s) = snakeKey s := by
  cases s with
  | mk cs =>
    simp only [snakeKey]
    rw [snakeChars_idem]

theorem camelKey_fixed (s : String) (h : keyNoSep s = true) : camelKey s = s := by
  cases s with
  | mk cs =>
    simp only [keyNoSep, List.all_eq_true, Bool.not_eq_true', String.data] at h
    simp only [camelKey, String.data]
    rw [camelChars_fixed cs h]

/-! ### Value-level round-trip and idempotence -/

mutual

/-- Every mapping key occurring anywhere in the value is free of the
separator characters `_`, `.` and `-`. -/
def keysNoSep : Js → Bool
  | .obj kvs => keysNoSepObj kvs
  | .arr xs => keysNoSepArr xs
  | _ => true

def keysNoSepObj : List (String × Js) → Bool
  | [] => true
  | (k, v) :: rest => keyNoSep k && keysNoSep v && keysNoSepObj rest

def keysNoSepArr : List Js → Bool
  | [] => true
  | x :: rest => keysNoSep x && keysNoSepArr rest

end

theorem keysNoSepObj_mem {kvs : List (String × Js)} (h : keysNoSepObj kvs = true)
    {kv : String × Js} (hm : kv ∈ kvs) :
    keyNoSep kv.1 = true ∧ keysNoSep kv.2 = true := by
  induction kvs with
  | nil => cases hm
  | cons hd tl ih =>
    obtain ⟨k, v⟩ := hd
    simp only [keysNoSepObj, Bool.and_eq_true] at h
    rcases List.mem_cons.mp hm with rfl | hm
    · exact ⟨h.1.1, h.1.2⟩
    · exact ih h.2 hm

theorem keysNoSepArr_mem {xs : List Js} (h : keysNoSepArr xs = true)
    {x : Js} (hm : x ∈ xs) : keysNoSep x = true := by
  induction xs with
  | nil => cases hm
  | cons hd tl ih =>
    simp only [keysNoSepArr, Bool.and_eq_true] at h
    rcases List.mem_cons.mp hm with rfl | hm
    · exact h.1
    · exact ih h.2 hm

theorem mapKeys_comp (f g : String → String) (x : Js) :
    mapKeys f (mapKeys g x) = mapKeys (fun s => f (g s)) x := by
  induction x using Js.inductionOn with
  | harr xs ih =>
    simp only [mapKeys_arr, List.map_map]
    congr 1
    exact List.map_congr_left (fun y hy => ih y hy)
  | hobj kvs ih =>
    simp only [mapKeys_obj, List.map_map]
    congr 1
    refine List.map_congr_left (fun kv hkv => ?_)
    simp only [Function.comp]
    rw [ih kv hkv]
  | _ => rfl

theorem mapKeys_congr_of_keys {f g : String → String} (x : Js)
    (hf : ∀ s, keyNoSep s = true → f s = g s) (hx : keysNoSep x = true) :
    mapKeys f x = mapKeys g x := by
  induction x using Js.inductionOn with
  | harr xs ih =>
    rw [keysNoSep] at hx
    simp only [mapKeys_arr]
    congr 1
    exact List.map_congr_left (fun y hy => ih y hy (keysNoSepArr_mem hx hy))
  | hobj kvs ih =>
    rw [keysNoSep] at hx
    simp only [mapKeys_obj]
    congr 1
    refine List.map_congr_left (fun kv hkv => ?_)
    have hm := keysNoSepObj_mem hx hkv
    rw [hf kv.1 hm.1, ih kv hkv hm.2]
  | _ => rfl

theorem mapKeys_id_of_keys {f : String → String} (x : Js)
    (hf : ∀ s, keyNoSep s = true → f s = s) (hx : keysNoSep x = true) :
    mapKeys f x = x := by
  induction x using Js.inductionOn with
  | harr xs ih =>
    rw [keysNoSep] at hx
    simp only [mapKeys_arr]
    congr 1
    have : ∀ y ∈ xs, mapKeys f y = y :=
      fun y hy => ih y hy (keysNoSepArr_mem hx hy)
    calc xs.map (mapKeys f) = xs.map id := List.map_congr_left this
      _ = xs := List.map_id xs
  | hobj kvs ih =>
    rw [keysNoSep] at hx
    simp only [mapKeys_obj]
    congr 1
    have : ∀ kv ∈ kvs, (f kv.1, mapKeys f kv.2) = kv := by
      intro kv hkv
      have hm := keysNoSepObj_mem hx hkv
      rw [hf kv.1 hm.1, ih kv hkv hm.2]
    calc kvs.map (fun kv => (f kv.1, mapKeys f kv.2)) = kvs.map id :=
          List.map_congr_left this
      _ = kvs := List.map_id kvs
  | _ => rfl

theorem snakeKey_keyNoSep_roundtrip (s : String) (h : keyNoSep s = true) :
    camelKey (snakeKey s) = s := camelKey_snakeKey s h

theorem toCamelCase_toSnakeCase_of_noSep (x : Js) (h : keysNoSep x = true) :
    toCamelCase (toSnakeCase x) = x := by
  rw [toCamelCase, toSnakeCase, mapKeys_comp]
  exact mapKeys_id_of_keys x (fun s hs => camelKey_snakeKey s hs) h

theorem toSnakeCase_idem (x : Js) : toSnakeCase (toSnakeCase x) = toSnakeCase x := by
  rw [toSnakeCase, toSnakeCase, mapKeys_comp]
  induction x using Js.inductionOn with
  | harr xs ih =>
    simp only [mapKeys_arr]
    congr 1
    exact List.map_congr_left (fun y hy => ih y hy)
  | hobj kvs ih =>
    simp only [mapKeys_obj]
    congr 1
    refine List.map_congr_left (fun kv hkv => ?_)
    rw [snakeKey_idem, ih kv hkv]
  | _ => rfl

theorem toCamelCase_fixed_of_noSep (x : Js) (h : keysNoSep x = true) :
    toCamelCase x = x :=
  mapKeys_id_of_keys x (fun s hs => camelKey_fixed s hs) h

/-! ## Pagination engine

`buildPages` is `utils/pagination.ts` (the builder-strategy page-window
computation used by `findWithPageAndSort`); `paginate` / `paginateSql`
are the raw-text pagination module. -/

/-- `Math.ceil(a / b)` on JS numbers for integer inputs: the ceiling of
the exact rational quotient.  (A zero divisor, which yields `Infinity` or
`NaN` in JS, is outside every property stated below; the pagination code
never produces a zero `limit` because `0` is `||`-defaulted.) -/
def jsCeilDiv (a b : Int) : Int := Int.ceil ((a : ℚ) / (b : ℚ))

theorem neg_ediv_eq (a b : ℤ) (hb : 0 < b) : -((-a) / b) = (a + b - 1) / b := by
  have h0 := Int.ediv_add_emod (-a) b
  have h1 : 0 ≤ (-a) % b := Int.emod_nonneg _ (by omega)
  have h2 : (-a) % b < b := Int.emod_lt_of_pos _ hb
  set q := (-a) / b with hq
  set r := (-a) % b with hr
  have hm : (-q) * b = -(b * q) := by ring
  rw [show a + b - 1 = (b - 1 - r) + (-q) * b by rw [hm]; omega]
  rw [Int.add_mul_ediv_right _ _ (by omega : b ≠ 0)]
  rw [Int.ediv_eq_zero_of_lt (by omega) (by omega)]
  omega

theorem jsCeilDiv_natCast (a b : ℕ) (hb : 0 < b) :
    jsCeilDiv a b = ((a + b - 1) / b : ℕ) := by
  unfold jsCeilDiv
  rw [show ((a : ℤ) : ℚ) / ((b : ℤ) : ℚ) = -((-(a : ℤ) : ℚ) / ((b : ℕ) : ℚ)) by
    push_cast
    ring]
  rw [Int.ceil_neg]
  rw [show (-(a : ℤ) : ℚ) = ((-(a : ℤ) : ℤ) : ℚ) by push_cast; ring]
  rw [Rat.floor_intCast_div_natCast]
  rw [Int.natCast_div]
  rw [neg_ediv_eq _ _ (by omega : (0:ℤ) < (b : ℤ))]
  congr 1
  omega

/-- Return record of `buildPages` in `utils/pagination.ts`: every field is
a plain number — none of them is ever `null`. -/
structure Pages where
  first : Int
  prev : Int
  current : Int
  next : Int
  last : Int
  deriving Repr, DecidableEq

/-- `buildPages(page, pageSize, count)` from `utils/pagination.ts`. -/
def buildPages (page pageSize count : Int) : Pages :=
  let first := 1
  let prev := if page ≤ 1 then 1 else page - 1
  let current := page
  let last := jsCeilDiv count pageSize
  let next := if current ≥ last then last else current + 1
  ⟨first, prev, current, next, last⟩

/-- The `pages` field of the shared `PaginationResult` interface:
`prev`, `next` and `last` are `number | null` there (`none` = `null`;
`last` is additionally `none` when the JS value is `NaN`). -/
structure PageWindow where
  first : Int
  prev : Option Int
  current : Int
  next : Option Int
  last : Option Int
  deriving Repr, DecidableEq

/-- The page window `findWithPageAndSort` stores into the
`PaginationResult` interface from `buildPages`' plain-number record:
every `number | null` field holds a number, never `null`. -/
def buildPagesWindow (page pageSize count : Int) : PageWindow :=
  let p := buildPages page pageSize count
  ⟨p.first, some p.prev, p.current, some p.next, some p.last⟩

/-- `PaginationParams` of the raw-text pagination module
(`maxRows`, `currentPage`, `hasOrderBy?`, `totalCountQuery`); `none`
models an absent (`undefined`) field, which the code guards against with
`||`/`!`. `boundParams` carries no logic and is omitted. -/
structure PaginationParams where
  maxRows : Option Int
  currentPage : Option Int
  hasOrderBy : Bool
  totalCountQuery : String

/-- JS `a || d` for a possibly-absent number `a`: absent and `0` are
falsy and yield the default. -/
def jsOr (v : Option Int) (d : Int) : Int :=
  match v with
  | none => d
  | some x => if x = 0 then d else x

/-- `paginateSql(sql, offset, limit, hasOrderBy)`: append a default
`ORDER BY id` exactly when `hasOrderBy` is false, then the
`OFFSET … ROWS FETCH NEXT … ROWS ONLY` windowing clause. -/
def paginateSql (sql : String) (offset limit : Int) (hasOrderBy : Bool) : String :=
  sql ++ " " ++ (if hasOrderBy then "" else "ORDER BY id") ++ " OFFSET " ++
    toString offset ++ " ROWS FETCH NEXT " ++ toString limit ++ " ROWS ONLY "

/-- JS truthiness of a value (`ToBoolean`). -/
def jsTruthy : Js → Bool
  | .str s => !(s == "")
  | .num n => !(n == 0)
  | .bool b => b
  | .null => false
  | .jsUndefined => false
  | .arr _ => true
  | .obj _ => true

/-- JS property read `x[k]`: `undefined` when the key is absent or the
value is not a mapping. -/
def jsField (x : Js) (k : String) : Js :=
  match x with
  | .obj kvs => (kvs.lookup k).getD .jsUndefined
  | _ => .jsUndefined

/-- Result record of the raw-text `paginate` (the `PaginationResult`
interface).  `totalCount` is stored exactly as read from the count row,
so it is `undefined` when the row lacks a `count` field. -/
structure PaginationResultJs where
  results : List Js
  totalCount : Js
  maxRows : Int
  pages : PageWindow
  deriving Repr

/-- Outcome of one `paginate` call: the SQL texts issued in order, and
either the result or the thrown `TypeError`. -/
structure PaginateOutcome where
  executed : List String
  result : Except String PaginationResultJs

/-- The `limit` resolution of `paginate`: `params.maxRows || 10`. -/
def resolvedLimit (params : PaginationParams) : Int := jsOr params.maxRows 10

/-- The `currentPage` resolution of `paginate`:
`!params.currentPage || params.currentPage < 1 ? 1 : params.currentPage` —
absent, `0` (falsy) and `< 1` all resolve to `1`. -/
def resolvedPage (params : PaginationParams) : Int :=
  match params.currentPage with
  | none => 1
  | some v => if v = 0 || v < 1 then 1 else v

/-- The raw-text `paginate(connection, query, params)`.  The external
executor `db.query` is modelled by the oracle `db`, mapping each SQL text
to the row list it returns (already case-normalized, as `db.query` is).
Control flow mirrors the source: resolve `limit` (`params.maxRows || 10`)
and `currentPage` (clamped to 1 when absent, `0`, or `< 1`), run the
count query, dereference `totalRecords[0].count` — a `TypeError` is
thrown there when the count query returned no rows, before the windowed
query is issued — compute the page window, then run the windowed query.
`last` is `Math.ceil(totalCount / limit)`, which is `NaN` (`none`) when
`totalCount` is `undefined`; `currentPage < NaN` is false, so `next` is
`null` in that case. -/
def paginate (db : String → List Js) (query : String) (params : PaginationParams) :
    PaginateOutcome :=
  let limit := resolvedLimit params
  let currentPage := resolvedPage params
  let offset := (currentPage - 1) * limit
  let prev : Option Int := if currentPage > 1 then some (currentPage - 1) else none
  let totalRecords := db params.totalCountQuery
  match totalRecords.head? with
  | none =>
    ⟨[params.totalCountQuery],
     .error "TypeError: Cannot read property 'count' of undefined"⟩
  | some row =>
    let totalCount := jsField row "count"
    let lastN : Option Int :=
      match totalCount with
      | .num n => some (jsCeilDiv n limit)
      | _ => none
    let next : Option Int :=
      match lastN with
      | some l => if currentPage < l then some (currentPage + 1) else none
      | none => none
    let paginatedQuery := paginateSql query offset limit params.hasOrderBy
    let results := db paginatedQuery
    ⟨[params.totalCountQuery, paginatedQuery],
     .ok ⟨results, totalCount, limit, ⟨1, prev, currentPage, next, lastN⟩⟩⟩

/-! ## Query executor (`db.ts`) -/

/-- JS object update `{...kvs, k: v}`: an existing key keeps its position
and gets the new value, an absent key is appended last. -/
def jsSet (kvs : List (String × Js)) (k : String) (v : Js) : List (String × Js) :=
  if kvs.any (fun kv => kv.1 == k) then
    kvs.map (fun kv => if kv.1 == k then (kv.1, v) else kv)
  else kvs ++ [(k, v)]

/-- JS spread-with-override `{...x, k: v}` on a mapping. -/
def spreadWith (x : Js) (k : String) (v : Js) : Js :=
  match x with
  | .obj kvs => .obj (jsSet kvs k v)
  | _ => .obj [(k, v)]

/-- `withTimestamp(connection, table, params)` from `db.ts`:
`hasUpdatedAtColumn` is the result of the external schema introspection
`connection.schema.hasColumn(table, 'updated_at')` and `now` the value of
`connection.fn.now()`.  The source test is
`if (!exists || (exists && params.updatedAt)) return toSnakeCase(params)`
— note `params.updatedAt` is used as a JS truthiness test — else
`{...toSnakeCase(params), updated_at: connection.fn.now()}`. -/
def withTimestamp (hasUpdatedAtColumn : Bool) (now : Js) (params : Js) : Js :=
  if !hasUpdatedAtColumn ||
      (hasUpdatedAtColumn && jsTruthy (jsField params "updatedAt")) then
    toSnakeCase params
  else
    spreadWith (toSnakeCase params) "updated_at" now

/-- The parameter object `update(connection, table, where, params)` hands
to the issued write (`qb.update(updatedParams)`): exactly
`withTimestamp`'s output. -/
def updateWriteParams (hasUpdatedAtColumn : Bool) (now : Js) (params : Js) : Js :=
  withTimestamp hasUpdatedAtColumn now params

/-- Result of `getProcParamsExpr`: the trimmed name and the binding
expression. -/
structure ProcExpr where
  procName : String
  expr : String
  deriving Repr, DecidableEq

/-- JS whitespace stripped by `String.prototype.trim` (ASCII part). -/
def isJsSpace (c : Char) : Bool :=
  c = ' ' || c = '\t' || c = '\n' || c = '\r' || c = '\x0b' || c = '\x0c'

/-- JS `objectName.trim()`. -/
def jsTrim (s : String) : String :=
  ⟨((s.data.dropWhile isJsSpace).reverse.dropWhile isJsSpace).reverse⟩

/-- The binding expression `params ? Object.keys(params).map(k => ':' + k).join(', ') : ''`
of `getProcParamsExpr` — `params` is the parameter map's key list in
iteration order, `none` models an absent map. -/
def procExprOf (params : Option (List String)) : String :=
  match params with
  | none => ""
  | some keys => String.intercalate ", " (keys.map (fun k => ":" ++ k))

/-- `getProcParamsExpr(objectName, params)` from `db.ts`: trim the name,
throw when the trimmed name is empty (falsy), else build the binding
expression from the parameter map's keys. -/
def getProcParamsExpr (objectName : String) (params : Option (List String)) :
    Except String ProcExpr :=
  let procName := jsTrim objectName
  if procName = "" then
    .error ("Invalid function or procedure name '" ++ procName ++ "'.")
  else
    .ok ⟨procName, procExprOf params⟩

/-- `invoke(connection, objectName, params)` from `db.ts`, up to the SQL
text it issues: `getProcParamsExpr` runs first (throwing on a blank
name, before any SQL text exists), then ``SELECT `procName`(`expr`)``
is built and issued. -/
def invoke (objectName : String) (params : Option (List String)) :
    Except String String :=
  match getProcParamsExpr objectName params with
  | .error e => .error e
  | .ok pe => .ok ("SELECT " ++ pe.procName ++ "(" ++ pe.expr ++ ")")

/-- `exec(connection, objectName, params)` from `db.ts`, up to the SQL
text it issues: `getProcParamsExpr` runs first (throwing on a blank
name), then ``EXEC `procName` `expr``` is built and issued. -/
def exec (objectName : String) (params : Option (List String)) :
    Except String String :=
  match getProcParamsExpr objectName params with
  | .error e => .error e
  | .ok pe => .ok ("EXEC " ++ pe.procName ++ " " ++ pe.expr)

/-- Modelled from the spec: the chunk partition performed by the external
`knex.batchInsert(table, rows, chunkSize)` that `batchInsert` in `db.ts`
delegates to — `rows` is split into consecutive chunks of `chunkSize`
(the last chunk may be smaller) and the chunks are inserted sequentially.
Stated for `chunkSize > 0` (knex rejects other sizes). -/
def chunks {α : Type} (size : Nat) : List α → List (List α)
  | [] => []
  | x :: xs => (x :: xs.take (size - 1)) :: chunks size (xs.drop (size - 1))
termination_by xs => xs.length
decreasing_by
  simp only [List.length_cons, List.length_drop]
  omega

/-- `batchInsert(connection, table, data, chunkSize)` from `db.ts`, seen
through the chunk partition: the sequence of inserts issued (one per
chunk, in order).  The rows returned are the concatenation of the
inserted chunks, which `batchInsert_spec` relates to the input order.
The chunking itself is data-agnostic, so it is stated for any row type. -/
def batchInsert {α : Type} (rows : List α) (chunkSize : Nat) : List (List α) :=
  chunks chunkSize rows

/-! ## Storage-tier and domain-tier lookups -/

mutual

/-- JS strict/`deep` equality of row cell values, as the external DB's
equality predicate compares them. -/
def jsEq : Js → Js → Bool
  | .str a, .str b => a == b
  | .num a, .num b => a == b
  | .bool a, .bool b => a == b
  | .null, .null => true
  | .jsUndefined, .jsUndefined => true
  | .arr a, .arr b => jsEqArr a b
  | .obj a, .obj b => jsEqObj a b
  | _, _ => false

def jsEqArr : List Js → List Js → Bool
  | [], [] => true
  | x :: xs, y :: ys => jsEq x y && jsEqArr xs ys
  | _, _ => false

def jsEqObj : List (String × Js) → List (String × Js) → Bool
  | [], [] => true
  | (k, v) :: xs, (l, w) :: ys => k == l && jsEq v w && jsEqObj xs ys
  | _, _ => false

end

/-- A table row: field name to value, in storage (snake) casing. -/
abbrev Row := List (String × Js)

/-- Modelled from the spec: the equality-predicate selection the external
DB performs for `.where(params)` — keep exactly the rows carrying every
given field/value pair. -/
def rowMatches (row : Row) (ps : Row) : Bool :=
  ps.all (fun kv =>
    match row.lookup kv.1 with
    | some v => jsEq v kv.2
    | none => false)

/-- Modelled from the spec: `.select('*').from(table).where(ps)` over an
in-memory table. -/
def selectWhere (table : List Row) (ps : Row) : List Row :=
  table.filter (fun row => rowMatches row ps)

/-- The key/value normalization `toSnakeCase` applies to a `where`
parameter mapping. -/
def toSnakeCaseRow (ps : Row) : Row :=
  ps.map (fun kv => (snakeKey kv.1, mapKeys snakeKey kv.2))

/-- `get(connection, table, params)` from the storage tier: select with
the snake-cased equality predicate, `limit(1)`, destructure the first
row; `null` (`none`) when there is none, else the camelized row. -/
def get (table : List Row) (params : Row) : Option Js :=
  match (selectWhere table (toSnakeCaseRow params)).head? with
  | none => none
  | some r => some (toCamelCase (.obj r))

/-- `getById(connection, table, id)`: `get` with `{ id }`. -/
def getById (table : List Row) (id : Int) : Option Js :=
  get table [("id", .num id)]

/-- `find(connection, table, params)` from the same module: `get`, then
throw `ModelNotFoundError('Model not found')` when the result is null. -/
def find (table : List Row) (params : Row) : Except String Js :=
  match get table params with
  | none => .error "Model not found"
  | some r => .ok r

/-- `findFirst` of `db.ts` (`model.ts`'s underlying builder):
`find(...).limit(1)` — a query whose awaited value is the (at most one
element) row list, not camelized and never raising.  The `orderBy`
argument cannot change whether the list is empty, so ordering is not
modelled. -/
def findFirst (table : List Row) (params : Row) : List Js :=
  ((selectWhere table (toSnakeCaseRow params)).take 1).map (fun r => .obj r)

/-- `BaseModel.findById(id)` from `model.ts`: build `{ id }` via
`buildIdParams` and return `db.findFirst`'s result directly — no
not-found check is performed on it. -/
def findById (table : List Row) (id : Int) : List Js :=
  findFirst table [("id", .num id)]

/-- `BaseModel.findByIdOrFail(id)` from `model.ts`: same query, then
`if (!result) throw new ModelNotFoundError(...)`.  The awaited builder
result is a row *list*, and `![]` is false in JS — an empty list is
truthy — so the guard tests the list itself, not its first element. -/
def findByIdOrFail (table : List Row) (id : Int) : Except String (List Js) :=
  let result := findById table id
  if !(jsTruthy (.arr result)) then .error "ModelNotFoundError"
  else .ok result

/-! ## Supporting lemmas -/

theorem resolvedPage_ge_one (p : PaginationParams) : 1 ≤ resolvedPage p := by
  unfold resolvedPage
  cases hc : p.currentPage with
  | none =>
    exact le_refl 1
  | some v =>
    show 1 ≤ if (decide (v = 0) || decide (v < 1)) = true then 1 else v
    split
    · omega
    · rename_i h
      simp only [Bool.or_eq_true, decide_eq_true_eq, not_or, not_lt] at h
      omega

theorem resolvedPage_of_ge_one (p : PaginationParams) (v : Int)
    (hv : p.currentPage = some v) (h1 : 1 ≤ v) : resolvedPage p = v := by
  unfold resolvedPage
  rw [hv]
  show (if (decide (v = 0) || decide (v < 1)) = true then 1 else v) = v
  have h0 : ¬((decide (v = 0) || decide (v < 1)) = true) := by
    simp only [Bool.or_eq_true, decide_eq_true_eq]
    omega
  rw [if_neg h0]

theorem resolvedPage_of_lt_one (p : PaginationParams) (v : Int)
    (hv : p.currentPage = some v) (h1 : v < 1) : resolvedPage p = 1 := by
  unfold resolvedPage
  rw [hv]
  show (if (decide (v = 0) || decide (v < 1)) = true then 1 else v) = 1
  have h0 : ((decide (v = 0) || decide (v < 1)) = true) := by
    simp only [Bool.or_eq_true, decide_eq_true_eq]
    omega
  rw [if_pos h0]

theorem resolvedLimit_default (p : PaginationParams) (h : p.maxRows = none) :
    resolvedLimit p = 10 := by
  unfold resolvedLimit jsOr
  rw [h]

theorem resolvedLimit_some (p : PaginationParams) (m : Int)
    (h : p.maxRows = some m) (hm : m ≠ 0) : resolvedLimit p = m := by
  unfold resolvedLimit jsOr
  rw [h]
  simp [hm]

theorem jsCeilDiv_int (a b : ℤ) (ha : 0 ≤ a) (hb : 0 < b) :
    jsCeilDiv a b = (a + b - 1) / b := by
  obtain ⟨a', rfl⟩ := Int.eq_ofNat_of_zero_le ha
  obtain ⟨b', rfl⟩ := Int.eq_ofNat_of_zero_le (le_of_lt hb)
  have hb' : 0 < b' := by exact_mod_cast hb
  rw [jsCeilDiv_natCast a' b' hb', Int.natCast_div]
  congr 1
  omega

theorem chunks_eq_nil_iff {α : Type} (s : Nat) (xs : List α) :
    chunks s xs = [] ↔ xs = [] := by
  cases xs with
  | nil => simp [chunks]
  | cons x xs =>
    rw [chunks]
    simp

theorem chunks_flatten {α : Type} (s : Nat) (xs : List α) :
    (chunks s xs).flatten = xs := by
  have H : ∀ (n : Nat) (xs : List α), xs.length ≤ n → (chunks s xs).flatten = xs := by
    intro n
    induction n with
    | zero =>
      intro xs hx
      have hxe : xs = [] := List.length_eq_zero.mp (by omega)
      subst hxe
      simp [chunks]
    | succ n ih =>
      intro xs hx
      cases xs with
      | nil => simp [chunks]
      | cons x xs =>
        rw [chunks]
        simp only [List.flatten_cons]
        rw [ih _ (by simp only [List.length_drop]; simp only [List.length_cons] at hx; omega)]
        simp [List.cons_append, List.take_append_drop]
  exact H xs.length xs le_rfl

theorem chunks_length {α : Type} (s : Nat) (hs : 0 < s) (xs : List α) :
    (chunks s xs).length = (xs.length + s - 1) / s := by
  have H : ∀ (n : Nat) (xs : List α), xs.length ≤ n →
      (chunks s xs).length = (xs.length + s - 1) / s := by
    intro n
    induction n with
    | zero =>
      intro xs hx
      have hxe : xs = [] := List.length_eq_zero.mp (by omega)
      subst hxe
      simp [chunks, Nat.div_eq_of_lt (by omega : s - 1 < s)]
    | succ n ih =>
      intro xs hx
      cases xs with
      | nil => simp [chunks, Nat.div_eq_of_lt (by omega : s - 1 < s)]
      | cons x xs =>
        rw [chunks]
        simp only [List.length_cons]
        rw [ih _ (by simp only [List.length_drop]; simp only [List.length_cons] at hx; omega)]
        simp only [List.length_drop]
        rcases Nat.lt_or_ge xs.length (s - 1) with hlt | hge
        · have h1 : xs.length - (s - 1) = 0 := by omega
          rw [h1]
          have h2 : (0 + s - 1) / s = 0 := Nat.div_eq_of_lt (by omega)
          rw [h2]
          have h3 : xs.length + 1 + s - 1 = xs.length + s := by omega
          rw [h3]
          exact (Nat.div_eq_of_lt_le (by omega) (by omega)).symm
        · have h1 : xs.length - (s - 1) + s - 1 = xs.length := by omega
          rw [h1]
          have h3 : xs.length + 1 + s - 1 = xs.length + s := by omega
          rw [h3, Nat.add_div_right _ hs]
  exact H xs.length xs le_rfl

theorem chunks_mem_length {α : Type} (s : Nat) (hs : 0 < s) (xs : List α) :
    ∀ c ∈ chunks s xs, c ≠ [] ∧ c.length ≤ s := by
  have H : ∀ (n : Nat) (xs : List α), xs.length ≤ n →
      ∀ c ∈ chunks s xs, c ≠ [] ∧ c.length ≤ s := by
    intro n
    induction n with
    | zero =>
      intro xs hx c hc
      have hxe : xs = [] := List.length_eq_zero.mp (by omega)
      subst hxe
      simp [chunks] at hc
    | succ n ih =>
      intro xs hx c hc
      cases xs with
      | nil => simp [chunks] at hc
      | cons x xs =>
        rw [chunks] at hc
        rcases List.mem_cons.mp hc with rfl | hc
        · refine ⟨by simp, ?_⟩
          simp only [List.length_cons, List.length_take]
          omega
        · exact ih _ (by simp only [List.length_drop]; simp only [List.length_cons] at hx; omega) c hc
  exact H xs.length xs le_rfl

theorem chunks_dropLast_length {α : Type} (s : Nat) (hs : 0 < s) (xs : List α) :
    ∀ c ∈ (chunks s xs).dropLast, c.length = s := by
  have H : ∀ (n : Nat) (xs : List α), xs.length ≤ n →
      ∀ c ∈ (chunks s xs).dropLast, c.length = s := by
    intro n
    induction n with
    | zero =>
      intro xs hx c hc
      have hxe : xs = [] := List.length_eq_zero.mp (by omega)
      subst hxe
      simp [chunks] at hc
    | succ n ih =>
      intro xs hx c hc
      cases xs with
      | nil => simp [chunks] at hc
      | cons x xs =>
        rw [chunks] at hc
        by_cases hrest : xs.drop (s - 1) = []
        · rw [hrest] at hc
          simp [chunks] at hc
        · have hne : chunks s (xs.drop (s - 1)) ≠ [] := by
            rw [Ne, chunks_eq_nil_iff]
            exact hrest
          rw [List.dropLast_cons_of_ne_nil hne] at hc
          rcases List.mem_cons.mp hc with rfl | hc
          · have hlen : s - 1 ≤ xs.length := by
              by_contra hcon
              push_neg at hcon
              exact hrest (List.drop_eq_nil_of_le (by omega))
            simp only [List.length_cons, List.length_take]
            omega
          · exact ih _ (by simp only [List.length_drop]; simp only [List.length_cons] at hx; omega) c hc
  exact H xs.length xs le_rfl

/-- Explicit form of a successful `paginate` run whose count row carries
a numeric `count` field. -/
theorem paginate_ok_eq (db : String → List Js) (q : String)
    (p : PaginationParams) (row : Js) (rest : List Js) (n : Int)
    (hdb : db p.totalCountQuery = row :: rest)
    (hcount : jsField row "count" = Js.num n) :
    (paginate db q p).result = .ok
      ⟨db (paginateSql q ((resolvedPage p - 1) * resolvedLimit p)
          (resolvedLimit p) p.hasOrderBy),
       Js.num n, resolvedLimit p,
       ⟨1,
        (if resolvedPage p > 1 then some (resolvedPage p - 1) else none),
        resolvedPage p,
        (if resolvedPage p < jsCeilDiv n (resolvedLimit p)
         then some (resolvedPage p + 1) else none),
        some (jsCeilDiv n (resolvedLimit p))⟩⟩ := by
  unfold paginate
  rw [hdb]
  show Except.ok _ = _
  rw [hcount]

/-! ## Claim theorems -/

/-- C1 (amended).  The raw-text `paginate` window behaves as claimed:
`prev` is null exactly when the current page is `≤ 1` and `current - 1`
otherwise, and `next` is null exactly when the current page is `≥ last`
and `current + 1` otherwise.  The builder-strategy window (`buildPages`)
does not use null: it clamps — `prev` is `1` when the page is `≤ 1` (not
null) and `next` is `last` when the current page is `≥ last` (not null);
none of its window fields is ever null. -/
theorem c1_page_window_amended :
    (∀ (db : String → List Js) (q : String) (p : PaginationParams)
        (row : Js) (rest : List Js) (n : Int),
      db p.totalCountQuery = row :: rest →
      jsField row "count" = Js.num n →
      ∃ r, (paginate db q p).result = .ok r ∧
        r.pages.current = resolvedPage p ∧
        r.pages.last = some (jsCeilDiv n (resolvedLimit p)) ∧
        (r.pages.current ≤ 1 → r.pages.prev = none) ∧
        (1 < r.pages.current → r.pages.prev = some (r.pages.current - 1)) ∧
        (jsCeilDiv n (resolvedLimit p) ≤ r.pages.current → r.pages.next = none) ∧
        (r.pages.current < jsCeilDiv n (resolvedLimit p) →
          r.pages.next = some (r.pages.current + 1)))
    ∧ (∀ page pageSize count : Int,
        (buildPagesWindow page pageSize count).prev =
          some (if page ≤ 1 then 1 else page - 1) ∧
        (buildPagesWindow page pageSize count).next =
          some (if page ≥ jsCeilDiv count pageSize then jsCeilDiv count pageSize
                else page + 1) ∧
        (buildPagesWindow page pageSize count).prev ≠ none ∧
        (buildPagesWindow page pageSize count).next ≠ none) := by
  constructor
  · intro db q p row rest n hdb hcount
    refine ⟨_, paginate_ok_eq db q p row rest n hdb hcount, rfl, rfl,
      ?_, ?_, ?_, ?_⟩
    · intro hle
      show (if resolvedPage p > 1 then some (resolvedPage p - 1) else none) = none
      have := resolvedPage_ge_one p
      simp only at hle
      rw [if_neg (by omega)]
    · intro hgt
      show (if resolvedPage p > 1 then some (resolvedPage p - 1) else none) =
        some (resolvedPage p - 1)
      simp only at hgt
      rw [if_pos (by omega)]
    · intro hge
      show (if resolvedPage p < jsCeilDiv n (resolvedLimit p)
            then some (resolvedPage p + 1) else none) = none
      simp only at hge
      rw [if_neg (by omega)]
    · intro hlt
      show (if resolvedPage p < jsCeilDiv n (resolvedLimit p)
            then some (resolvedPage p + 1) else none) =
        some (resolvedPage p + 1)
      simp only at hlt
      rw [if_pos (by omega)]
  · intro page pageSize count
    exact ⟨rfl, rfl, by simp [buildPagesWindow], by simp [buildPagesWindow]⟩

/-- C1 counterexample.  At `buildPages(page=1, pageSize=10, count=95)` the
current page is `1 ≤ 1` but `prev` is the number `1`, not null; at
`buildPages(page=10, pageSize=10, count=95)` the current page equals
`last = 10` but `next` is the number `10`, not null — refuting the claim
that the builder-strategy window uses null at the boundaries. -/
theorem c1_page_window_counterexample :
    (buildPagesWindow 1 10 95).current = 1 ∧
    (buildPagesWindow 1 10 95).prev = some 1 ∧
    (buildPagesWindow 1 10 95).prev ≠ none ∧
    (buildPagesWindow 10 10 95).next = some 10 ∧
    (buildPagesWindow 10 10 95).next ≠ none := by
  have h10 : jsCeilDiv 95 10 = 10 := by
    have h := jsCeilDiv_natCast 95 10 (by norm_num)
    norm_num at h
    exact h
  refine ⟨rfl, rfl, by simp [buildPagesWindow], ?_, by simp [buildPagesWindow]⟩
  show some (if (10 : ℤ) ≥ jsCeilDiv 95 10 then jsCeilDiv 95 10 else 10 + 1) =
    some 10
  rw [h10, if_pos (by omega)]

/-- C1 witness: the raw-text side of the amended theorem applied at
`maxRows = 10`, `currentPage = 1`, `totalCount = 95`. -/
theorem c1_page_window_witness :
    ∃ r, (paginate (fun _ => [Js.obj [("count", Js.num 95)]]) "Q"
        ⟨some 10, some 1, true, "C"⟩).result = .ok r ∧
      r.pages.current = resolvedPage ⟨some 10, some 1, true, "C"⟩ ∧
      r.pages.last = some (jsCeilDiv 95
        (resolvedLimit ⟨some 10, some 1, true, "C"⟩)) ∧
      (r.pages.current ≤ 1 → r.pages.prev = none) ∧
      (1 < r.pages.current → r.pages.prev = some (r.pages.current - 1)) ∧
      (jsCeilDiv 95 (resolvedLimit ⟨some 10, some 1, true, "C"⟩) ≤
          r.pages.current → r.pages.next = none) ∧
      (r.pages.current < jsCeilDiv 95
          (resolvedLimit ⟨some 10, some 1, true, "C"⟩) →
        r.pages.next = some (r.pages.current + 1)) :=
  c1_page_window_amended.1 (fun _ => [Js.obj [("count", Js.num 95)]]) "Q"
    ⟨some 10, some 1, true, "C"⟩ (Js.obj [("count", Js.num 95)]) [] 95 rfl rfl

/-- C2 (amended).  Both window computations set
`last = Math.ceil(totalCount / maxRows)`, which for `maxRows > 0` and
`totalCount ≥ 0` equals `(totalCount + maxRows - 1) / maxRows`; but when
`totalCount = 0` this is `0`, not `≥ 1` — the "at least 1 even when
totalCount = 0" part of the claim is false (see the counterexample). -/
theorem c2_last_amended :
    (∀ page pageSize count : Int, 0 ≤ count → 0 < pageSize →
      (buildPages page pageSize count).last = (count + pageSize - 1) / pageSize)
    ∧ (∀ (db : String → List Js) (q : String) (p : PaginationParams)
        (row : Js) (rest : List Js) (n m : Int),
      db p.totalCountQuery = row :: rest →
      jsField row "count" = Js.num n → 0 ≤ n →
      p.maxRows = some m → 0 < m →
      ∃ r, (paginate db q p).result = .ok r ∧
        r.pages.last = some ((n + m - 1) / m)) := by
  constructor
  · intro page pageSize count hc hp
    show jsCeilDiv count pageSize = _
    exact jsCeilDiv_int count pageSize hc hp
  · intro db q p row rest n m hdb hcount hn hm hm0
    refine ⟨_, paginate_ok_eq db q p row rest n hdb hcount, ?_⟩
    show some (jsCeilDiv n (resolvedLimit p)) = some ((n + m - 1) / m)
    rw [resolvedLimit_some p m hm (by omega)]
    rw [jsCeilDiv_int n m hn hm0]

/-- C2 counterexample.  With `totalCount = 0` and `maxRows = 10` the last
page is `0` in both computations — refuting "last … is at least 1 even
when totalCount = 0". -/
theorem c2_last_counterexample :
    (buildPages 1 10 0).last = 0 ∧
    (∃ r, (paginate (fun _ => [Js.obj [("count", Js.num 0)]]) "Q"
        ⟨some 10, some 1, true, "C"⟩).result = .ok r ∧
      r.pages.last = some 0 ∧ ¬(1 ≤ 0 : Prop)) := by
  have h0 : jsCeilDiv 0 10 = 0 := by
    simp [jsCeilDiv]
  refine ⟨h0, ⟨_, rfl, ?_, by omega⟩⟩
  show some (jsCeilDiv 0 10) = some 0
  rw [h0]

/-- C2 witness: the amended theorem applied at `buildPages 1 10 95`
(`last = 10`) and at a `paginate` run with `totalCount = 95`,
`maxRows = 10`. -/
theorem c2_last_witness :
    (buildPages 1 10 95).last = (95 + 10 - 1) / 10 ∧
    (∃ r, (paginate (fun _ => [Js.obj [("count", Js.num 95)]]) "Q"
        ⟨some 10, some 1, true, "C"⟩).result = .ok r ∧
      r.pages.last = some ((95 + 10 - 1) / 10)) :=
  ⟨c2_last_amended.1 1 10 95 (by norm_num) (by norm_num),
   c2_last_amended.2 (fun _ => [Js.obj [("count", Js.num 95)]]) "Q"
    ⟨some 10, some 1, true, "C"⟩ (Js.obj [("count", Js.num 95)]) [] 95 10
    rfl rfl (by norm_num) rfl (by norm_num)⟩

/-- C7 (confirmed).  The raw-text `paginate` resolves `maxRows` to the
default 10 when it is not supplied, clamps any missing or `< 1` current
page to 1 (and keeps a supplied page `≥ 1`), and issues exactly the count
query followed by the windowed query, whose text is the base query plus a
default `ORDER BY id` exactly when `hasOrderBy` is false, an
`OFFSET (currentPage-1)*maxRows ROWS` clause, and a
`FETCH NEXT maxRows ROWS ONLY` clause. -/
theorem c7_paginate_resolution :
    ∀ (db : String → List Js) (q : String) (p : PaginationParams),
      (p.maxRows = none → resolvedLimit p = 10)
      ∧ 1 ≤ resolvedPage p
      ∧ (p.currentPage = none → resolvedPage p = 1)
      ∧ (∀ v, p.currentPage = some v → v < 1 → resolvedPage p = 1)
      ∧ (∀ v, p.currentPage = some v → 1 ≤ v → resolvedPage p = v)
      ∧ (∀ row rest, db p.totalCountQuery = row :: rest →
          (paginate db q p).executed =
            [p.totalCountQuery,
             q ++ " " ++ (if p.hasOrderBy then "" else "ORDER BY id") ++
               " OFFSET " ++ toString ((resolvedPage p - 1) * resolvedLimit p) ++
               " ROWS FETCH NEXT " ++ toString (resolvedLimit p) ++
               " ROWS ONLY "]) := by
  intro db q p
  refine ⟨resolvedLimit_default p, resolvedPage_ge_one p, ?_,
    fun v hv h1 => resolvedPage_of_lt_one p v hv h1,
    fun v hv h1 => resolvedPage_of_ge_one p v hv h1, ?_⟩
  · intro h
    unfold resolvedPage
    rw [h]
  · intro row rest hdb
    unfold paginate
    rw [hdb]
    rfl

/-- C7 witness: `maxRows` missing resolves to 10, `currentPage = 0`
clamps to 1, and the windowed query text carries the default
`ORDER BY id`, `OFFSET 0` and `FETCH NEXT 10`. -/
theorem c7_paginate_resolution_witness :
    resolvedLimit ⟨none, some 0, false, "C"⟩ = 10 ∧
    resolvedPage ⟨none, some 0, false, "C"⟩ = 1 ∧
    (paginate (fun _ => [Js.obj [("count", Js.num 95)]]) "SELECT * FROM t"
      ⟨none, some 0, false, "C"⟩).executed =
      ["C", "SELECT * FROM t" ++ " " ++ "ORDER BY id" ++ " OFFSET " ++
        toString ((resolvedPage ⟨none, some 0, false, "C"⟩ - 1) *
          resolvedLimit ⟨none, some 0, false, "C"⟩) ++
        " ROWS FETCH NEXT " ++
        toString (resolvedLimit ⟨none, some 0, false, "C"⟩) ++
        " ROWS ONLY "] := by
  have h := c7_paginate_resolution (fun _ => [Js.obj [("count", Js.num 95)]])
    "SELECT * FROM t" ⟨none, some 0, false, "C"⟩
  refine ⟨h.1 rfl, h.2.2.2.1 0 rfl (by norm_num), ?_⟩
  have he := h.2.2.2.2.2 (Js.obj [("count", Js.num 95)]) [] rfl
  simpa using he

/-- C10 (amended).  The raw-text `paginate` dereferences
`totalRecords[0].count` without a guard: when the count query returns no
rows, a `TypeError` is thrown and only the count query was executed (the
windowed query is never issued); when the count query returns at least
one row, the call completes without error even if that row has no
`count` field — the claimed precondition "carrying a count field" is not
enforced (the counterexample exhibits completion with `undefined`
`totalCount` and `NaN` `last`). -/
theorem c10_count_deref_amended :
    ∀ (db : String → List Js) (q : String) (p : PaginationParams),
      (db p.totalCountQuery = [] →
        (paginate db q p).result =
          .error "TypeError: Cannot read property 'count' of undefined" ∧
        (paginate db q p).executed = [p.totalCountQuery])
      ∧ (∀ row rest, db p.totalCountQuery = row :: rest →
          ∃ r, (paginate db q p).result = .ok r ∧
            (paginate db q p).executed =
              [p.totalCountQuery,
               paginateSql q ((resolvedPage p - 1) * resolvedLimit p)
                 (resolvedLimit p) p.hasOrderBy]) := by
  intro db q p
  constructor
  · intro h
    unfold paginate
    rw [h]
    exact ⟨rfl, rfl⟩
  · intro row rest h
    unfold paginate
    rw [h]
    exact ⟨_, rfl, rfl⟩

/-- C10 counterexample.  A count query returning one row *without* a
`count` field violates the claimed precondition, yet `paginate` does not
reach the error branch: it completes, stores `undefined` as `totalCount`,
computes a `NaN` (`none`) `last`, and still executes the windowed query
(two statements issued). -/
theorem c10_count_deref_counterexample :
    ∃ r, (paginate (fun _ => [Js.obj []]) "Q"
        ⟨some 10, some 1, true, "C"⟩).result = .ok r ∧
      r.totalCount = .jsUndefined ∧ r.pages.last = none ∧
      (paginate (fun _ => [Js.obj []]) "Q"
        ⟨some 10, some 1, true, "C"⟩).executed.length = 2 :=
  ⟨_, rfl, rfl, rfl, rfl⟩

/-- C10 witness: the amended theorem applied to a count query returning
no rows (error, one statement issued) and to one returning a row
(completion, two statements issued). -/
theorem c10_count_deref_witness :
    ((paginate (fun _ => []) "Q" ⟨some 10, some 1, true, "C"⟩).result =
      .error "TypeError: Cannot read property 'count' of undefined" ∧
     (paginate (fun _ => []) "Q" ⟨some 10, some 1, true, "C"⟩).executed =
      ["C"]) ∧
    (∃ r, (paginate (fun _ => [Js.obj [("count", Js.num 95)]]) "Q"
        ⟨some 10, some 1, true, "C"⟩).result = .ok r ∧
      (paginate (fun _ => [Js.obj [("count", Js.num 95)]]) "Q"
        ⟨some 10, some 1, true, "C"⟩).executed =
        ["C", paginateSql "Q"
          ((resolvedPage ⟨some 10, some 1, true, "C"⟩ - 1) *
            resolvedLimit ⟨some 10, some 1, true, "C"⟩)
          (resolvedLimit ⟨some 10, some 1, true, "C"⟩) true]) :=
  ⟨(c10_count_deref_amended (fun _ => []) "Q" ⟨some 10, some 1, true, "C"⟩).1 rfl,
   (c10_count_deref_amended (fun _ => [Js.obj [("count", Js.num 95)]]) "Q"
     ⟨some 10, some 1, true, "C"⟩).2 (Js.obj [("count", Js.num 95)]) [] rfl⟩

end JsUtil

namespace JsUtil

/-- C3 (code bug in `model.ts`).  On a table holding no row with the
requested id: the storage-tier `getById` (built on `get`) returns null as
claimed, and the older module's domain-tier `find` raises ModelNotFound —
but `BaseModel.findById` in `model.ts`, whose own doc comment says
"Throws an exception if not found", returns `db.findFirst`'s raw result
(an empty row list) without raising; even `findByIdOrFail` resolves
successfully because its `!result` guard tests the row *list*, which is
truthy when empty. -/
theorem c3_lookup_tier_divergence :
    (getById [] 1 = none ∧
     find [] [("id", Js.num 1)] = .error "Model not found" ∧
     findById [] 1 = [] ∧
     findByIdOrFail [] 1 = .ok []) ∧
    (getById [[("id", Js.num 2), ("name", Js.str "a")]] 1 = none ∧
     find [[("id", Js.num 2), ("name", Js.str "a")]] [("id", Js.num 1)] =
       .error "Model not found" ∧
     findById [[("id", Js.num 2), ("name", Js.str "a")]] 1 = [] ∧
     findByIdOrFail [[("id", Js.num 2), ("name", Js.str "a")]] 1 = .ok []) :=
  ⟨⟨rfl, rfl, rfl, rfl⟩, ⟨rfl, rfl, rfl, rfl⟩⟩

/-- C4 (amended).  `toCamelCase (toSnakeCase x) = x` holds for every value
whose mapping keys (at every depth) are free of the separator characters
`_`, `.` and `-` — but not for all values: a key that is already
snake_case is rewritten to camelCase by the return trip (see the
counterexample). -/
theorem c4_roundtrip_amended :
    ∀ x : Js, keysNoSep x = true → toCamelCase (toSnakeCase x) = x :=
  fun x h => toCamelCase_toSnakeCase_of_noSep x h

/-- C4 counterexample.  `toSnakeCase` leaves the key `key_one` unchanged
(no uppercase letters), and `toCamelCase` then rewrites it to `keyOne`,
so the round trip moves the value under a different key. -/
theorem c4_roundtrip_counterexample :
    toCamelCase (toSnakeCase (Js.obj [("key_one", Js.num 1)])) ≠
      Js.obj [("key_one", Js.num 1)] := by
  intro h
  have he : toCamelCase (toSnakeCase (Js.obj [("key_one", Js.num 1)])) =
      Js.obj [("keyOne", Js.num 1)] := rfl
  rw [he] at h
  injection h with h1
  simp at h1

/-- C4 witness: the amended round trip applied to a nested value with
camelCase keys. -/
theorem c4_roundtrip_witness :
    keysNoSep (Js.obj [("keyOne",
        Js.arr [Js.obj [("innerKey", Js.num 2)]])]) = true ∧
    toCamelCase (toSnakeCase (Js.obj [("keyOne",
        Js.arr [Js.obj [("innerKey", Js.num 2)]])])) =
      Js.obj [("keyOne", Js.arr [Js.obj [("innerKey", Js.num 2)]])] :=
  ⟨by decide, c4_roundtrip_amended _ (by decide)⟩

/-- C9 (amended).  `toSnakeCase` is idempotent on every value (its output
contains no uppercase letters, so a second pass is the identity).
`toCamelCase` is idempotent on values whose mapping keys are free of the
separator characters `_`, `.` and `-` (it fixes such values), but not on
all values: consecutive separators collapse one step per pass (see the
counterexample). -/
theorem c9_idempotence_amended :
    (∀ x : Js, toSnakeCase (toSnakeCase x) = toSnakeCase x)
    ∧ (∀ x : Js, keysNoSep x = true →
        toCamelCase (toCamelCase x) = toCamelCase x) := by
  refine ⟨toSnakeCase_idem, fun x h => ?_⟩
  rw [toCamelCase_fixed_of_noSep x h, toCamelCase_fixed_of_noSep x h]

/-- C9 counterexample.  On the key `a__b`, `camelize`'s rewrite matches
`__` (an underscore is a `\w` character), producing `a_b`; the second
application produces `aB` — so `toCamelCase` applied twice differs from
once. -/
theorem c9_idempotence_counterexample :
    toCamelCase (toCamelCase (Js.obj [("a__b", Js.num 1)])) ≠
      toCamelCase (Js.obj [("a__b", Js.num 1)]) := by
  intro h
  have h1 : toCamelCase (toCamelCase (Js.obj [("a__b", Js.num 1)])) =
      Js.obj [("aB", Js.num 1)] := rfl
  have h2 : toCamelCase (Js.obj [("a__b", Js.num 1)]) =
      Js.obj [("a_b", Js.num 1)] := rfl
  rw [h1, h2] at h
  injection h with h3
  simp at h3

/-- C9 witness: the camel half of the amended theorem applied to a value
with separator-free keys. -/
theorem c9_idempotence_witness :
    keysNoSep (Js.obj [("keyOne", Js.num 1)]) = true ∧
    toCamelCase (toCamelCase (Js.obj [("keyOne", Js.num 1)])) =
      toCamelCase (Js.obj [("keyOne", Js.num 1)]) :=
  ⟨by decide, c9_idempotence_amended.2 _ (by decide)⟩

/-- C6 (confirmed).  For every object name that is empty or blank after
trimming, `getProcParamsExpr` — and hence `invoke` and `exec`, which call
it before building any SQL text — throws the invalid-procedure-name
error; for every non-blank name they succeed, and the SQL they issue
carries the binding expression `:k1, :k2, …` built from the parameter
map's keys in iteration order. -/
theorem c6_blank_proc_name :
    ∀ (objectName : String) (params : Option (List String)),
      (jsTrim objectName = "" →
        getProcParamsExpr objectName params =
          .error ("Invalid function or procedure name '" ++
            jsTrim objectName ++ "'.") ∧
        invoke objectName params =
          .error ("Invalid function or procedure name '" ++
            jsTrim objectName ++ "'.") ∧
        exec objectName params =
          .error ("Invalid function or procedure name '" ++
            jsTrim objectName ++ "'."))
      ∧ (jsTrim objectName ≠ "" →
        invoke objectName params =
          .ok ("SELECT " ++ jsTrim objectName ++ "(" ++ procExprOf params ++ ")") ∧
        exec objectName params =
          .ok ("EXEC " ++ jsTrim objectName ++ " " ++ procExprOf params) ∧
        ∀ keys, params = some keys →
          procExprOf params =
            String.intercalate ", " (keys.map (fun k => ":" ++ k))) := by
  intro objectName params
  constructor
  · intro h
    refine ⟨?_, ?_, ?_⟩ <;> simp [getProcParamsExpr, invoke, exec, h]
  · intro h
    refine ⟨?_, ?_, ?_⟩
    · simp [getProcParamsExpr, invoke, h]
    · simp [getProcParamsExpr, exec, h]
    · intro keys hk
      rw [hk, procExprOf]

/-- C6 witness: a blank name (`"   "`) throws in both `invoke` and
`exec`; the non-blank name `" dbo.fn "` trims and succeeds with the
binding expression `:userId, :objectId`. -/
theorem c6_blank_proc_name_witness :
    jsTrim "   " = "" ∧
    invoke "   " (some ["userId"]) =
      .error ("Invalid function or procedure name '" ++ jsTrim "   " ++ "'.") ∧
    jsTrim " dbo.fn " ≠ "" ∧
    invoke " dbo.fn " (some ["userId", "objectId"]) =
      .ok ("SELECT " ++ jsTrim " dbo.fn " ++ "(" ++
        procExprOf (some ["userId", "objectId"]) ++ ")") ∧
    procExprOf (some ["userId", "objectId"]) = ":userId, :objectId" :=
  ⟨by decide,
   ((c6_blank_proc_name "   " (some ["userId"])).1 (by decide)).2.1,
   by decide,
   ((c6_blank_proc_name " dbo.fn " (some ["userId", "objectId"])).2
     (by decide)).1,
   by decide⟩

/-- C8 (confirmed; the chunking itself is knex's, modelled from the
spec).  `batchInsert` partitions the rows into consecutive chunks:
concatenating the issued chunks in order yields exactly the input rows
(original order preserved), every chunk except possibly the last has
exactly `chunkSize` rows, every chunk is nonempty with at most
`chunkSize` rows, and the number of inserts issued is
`⌈rows/chunkSize⌉`; the witness instantiates 25 rows with chunk size 10:
exactly 3 inserts of sizes 10, 10, 5. -/
theorem c8_batch_insert_chunks :
    ∀ {α : Type} (rows : List α) (chunkSize : Nat), 0 < chunkSize →
      (batchInsert rows chunkSize).flatten = rows ∧
      (∀ c ∈ (batchInsert rows chunkSize).dropLast, c.length = chunkSize) ∧
      (∀ c ∈ batchInsert rows chunkSize, c ≠ [] ∧ c.length ≤ chunkSize) ∧
      (batchInsert rows chunkSize).length =
        (rows.length + chunkSize - 1) / chunkSize := by
  intro α rows s hs
  exact ⟨chunks_flatten s rows, chunks_dropLast_length s hs rows,
    chunks_mem_length s hs rows, chunks_length s hs rows⟩

/-- C8 witness: 25 rows with chunk size 10 — exactly 3 inserts, of sizes
10, 10 and 5, concatenating back to the 25 rows in input order. -/
theorem c8_batch_insert_witness :
    (0 < 10) ∧
    (batchInsert (List.range 25) 10).flatten = List.range 25 ∧
    (batchInsert (List.range 25) 10).length = 3 ∧
    (batchInsert (List.range 25) 10).map List.length = [10, 10, 5] := by
  have h := c8_batch_insert_chunks (List.range 25) 10 (by norm_num)
  refine ⟨by norm_num, h.1, ?_, ?_⟩
  · have h4 := h.2.2.2
    simpa using h4
  · simp [batchInsert, List.range_succ, chunks]

end JsUtil

namespace JsUtil

/-- A scalar value: neither a mapping nor a sequence, so the key rewrites
leave it untouched. -/
def isScalarJs : Js → Bool
  | .arr _ => false
  | .obj _ => false
  | _ => true

theorem mapKeys_of_scalar (f : String → String) (v : Js)
    (h : isScalarJs v = true) : mapKeys f v = v := by
  cases v <;> first
    | rfl
    | simp [isScalarJs] at h

theorem lookup_cons_ne {a k : String} (b : Js) (es : List (String × Js))
    (h : a ≠ k) : List.lookup a ((k, b) :: es) = List.lookup a es := by
  rw [List.lookup_cons]
  have hb : (a == k) = false := beq_eq_false_iff_ne.mpr h
  rw [hb]

theorem lookup_eq_none_of_not_any (kvs : List (String × Js)) (k : String)
    (h : kvs.any (fun kv => kv.1 == k) = false) : kvs.lookup k = none := by
  induction kvs with
  | nil => rfl
  | cons hd tl ih =>
    obtain ⟨k1, w⟩ := hd
    simp only [List.any_cons, Bool.or_eq_false_iff, beq_eq_false_iff_ne] at h
    rw [lookup_cons_ne w tl (fun hx => h.1 hx.symm)]
    exact ih (by simpa [beq_eq_false_iff_ne] using h.2)

theorem lookup_map_override (v : Js) (kvs : List (String × Js)) (k : String)
    (h : kvs.any (fun kv => kv.1 == k) = true) :
    (kvs.map (fun kv => if kv.1 == k then (kv.1, v) else kv)).lookup k =
      some v := by
  induction kvs with
  | nil => simp at h
  | cons hd tl ih =>
    obtain ⟨k1, w⟩ := hd
    simp only [List.any_cons, Bool.or_eq_true, beq_iff_eq] at h
    by_cases he : k1 = k
    · subst he
      simp only [List.map_cons, beq_self_eq_true, if_true]
      exact List.lookup_cons_self
    · rcases h with h | h
      · exact absurd h he
      · simp only [List.map_cons]
        rw [if_neg (by simpa using he)]
        rw [lookup_cons_ne _ _ (fun hx => he hx.symm)]
        exact ih (by simpa using h)

theorem lookup_append_single (kvs : List (String × Js)) (k : String) (v : Js)
    (h : kvs.any (fun kv => kv.1 == k) = false) :
    (kvs ++ [(k, v)]).lookup k = some v := by
  rw [List.lookup_append, lookup_eq_none_of_not_any kvs k h]
  rw [List.lookup_cons_self]
  rfl

theorem lookup_jsSet (kvs : List (String × Js)) (k : String) (v : Js) :
    (jsSet kvs k v).lookup k = some v := by
  unfold jsSet
  by_cases h : kvs.any (fun kv => kv.1 == k)
  · rw [if_pos h]
    exact lookup_map_override v kvs k h
  · rw [if_neg h]
    refine lookup_append_single kvs k v ?_
    simp only [Bool.not_eq_true] at h
    exact h

theorem lookup_map_snakeKey (kvs : List (String × Js)) (k : String) (v : Js)
    (h : kvs.lookup k = some v)
    (hcol : ∀ kv ∈ kvs, kv.1 ≠ k → snakeKey kv.1 ≠ snakeKey k) :
    (kvs.map (fun kv => (snakeKey kv.1, mapKeys snakeKey kv.2))).lookup
      (snakeKey k) = some (mapKeys snakeKey v) := by
  induction kvs with
  | nil => simp [List.lookup] at h
  | cons hd tl ih =>
    obtain ⟨k1, w⟩ := hd
    by_cases he : k1 = k
    · subst he
      rw [List.lookup_cons_self] at h
      have hv : w = v := Option.some.inj h
      subst hv
      simp only [List.map_cons]
      exact List.lookup_cons_self
    · have h1 : tl.lookup k = some v := by
        rw [lookup_cons_ne w tl (fun hx => he hx.symm)] at h
        exact h
      have hcol1 : snakeKey k1 ≠ snakeKey k :=
        hcol (k1, w) (List.mem_cons_self _ _) he
      simp only [List.map_cons]
      rw [lookup_cons_ne _ _ (fun hx => hcol1 hx.symm)]
      exact ih h1 (fun kv hkv hne => hcol kv (List.mem_cons_of_mem _ hkv) hne)

/-- C5 (amended).  On a table with the tracked `updated_at` column:
when the caller's data has no (or an `undefined`) `updatedAt` field, the
issued write carries the freshly generated timestamp under `updated_at`;
when the caller supplies a *truthy* scalar value for `updatedAt` (and no
other key of the data snake-cases to `updated_at`), that value passes
through to the issued write unmodified.  A supplied *falsy* value (such
as `0`), however, is overwritten by the generated timestamp — the
"any supplied value" part of the claim fails (see the counterexample).
Without the column, the data passes through snake-cased only. -/
theorem c5_timestamp_amended :
    ∀ (now : Js) (kvs : List (String × Js)),
      (jsField (Js.obj kvs) "updatedAt" = Js.jsUndefined →
        jsField (updateWriteParams true now (Js.obj kvs)) "updated_at" = now)
      ∧ (∀ v, kvs.lookup "updatedAt" = some v → jsTruthy v = true →
          isScalarJs v = true →
          (∀ kv ∈ kvs, kv.1 ≠ "updatedAt" → snakeKey kv.1 ≠ "updated_at") →
          jsField (updateWriteParams true now (Js.obj kvs)) "updated_at" = v)
      ∧ updateWriteParams false now (Js.obj kvs) = toSnakeCase (Js.obj kvs) := by
  intro now kvs
  refine ⟨?_, ?_, rfl⟩
  · intro h
    unfold updateWriteParams withTimestamp
    rw [h]
    show jsField (spreadWith (toSnakeCase (Js.obj kvs)) "updated_at" now)
      "updated_at" = now
    rw [toSnakeCase, mapKeys_obj]
    show ((jsSet _ "updated_at" now).lookup "updated_at").getD .jsUndefined = now
    rw [lookup_jsSet]
    rfl
  · intro v hlookup htruthy hscalar hcol
    unfold updateWriteParams withTimestamp
    have hf : jsField (Js.obj kvs) "updatedAt" = v := by
      simp [jsField, hlookup]
    rw [hf, htruthy]
    show jsField (toSnakeCase (Js.obj kvs)) "updated_at" = v
    rw [toSnakeCase, mapKeys_obj]
    show ((kvs.map (fun kv => (snakeKey kv.1, mapKeys snakeKey kv.2))).lookup
      "updated_at").getD .jsUndefined = v
    have hsnake : snakeKey "updatedAt" = "updated_at" := rfl
    rw [show ("updated_at" : String) = snakeKey "updatedAt" from rfl]
    rw [lookup_map_snakeKey kvs "updatedAt" v hlookup
      (fun kv hkv hne => by rw [hsnake]; exact hcol kv hkv hne)]
    show mapKeys snakeKey v = v
    exact mapKeys_of_scalar _ v hscalar

/-- C5 counterexample.  The caller supplies `updatedAt: 0` — a value, but
a falsy one — and the issued write carries the generated timestamp
instead of `0`: the supplied value does not pass through. -/
theorem c5_timestamp_counterexample :
    ([("updatedAt", Js.num 0)] : List (String × Js)).lookup "updatedAt" =
      some (Js.num 0) ∧
    jsField (updateWriteParams true (Js.str "NOW")
      (Js.obj [("updatedAt", Js.num 0)])) "updated_at" = Js.str "NOW" ∧
    Js.str "NOW" ≠ Js.num 0 :=
  ⟨rfl, rfl, fun h => Js.noConfusion h⟩

/-- C5 witness: the amended theorem applied to a data object without the
timestamp field (fresh value injected) and to one with a truthy supplied
timestamp (passed through unmodified). -/
theorem c5_timestamp_witness :
    (jsField (Js.obj [("name", Js.str "x")]) "updatedAt" = Js.jsUndefined ∧
     jsField (updateWriteParams true (Js.str "NOW")
       (Js.obj [("name", Js.str "x")])) "updated_at" = Js.str "NOW") ∧
    (([("updatedAt", Js.str "TS")] : List (String × Js)).lookup "updatedAt" =
      some (Js.str "TS") ∧
     jsField (updateWriteParams true (Js.str "NOW")
       (Js.obj [("updatedAt", Js.str "TS")])) "updated_at" = Js.str "TS") :=
  ⟨⟨rfl, (c5_timestamp_amended (Js.str "NOW") [("name", Js.str "x")]).1 rfl⟩,
   ⟨rfl, (c5_timestamp_amended (Js.str "NOW") [("updatedAt", Js.str "TS")]).2.1
     (Js.str "TS") rfl (by decide) (by decide) (by decide)⟩⟩

end JsUtil
